import Mathlib

/-!
# Verification of the LACHESIS `gtools/FileParsers` core

This development gives a shallow embedding of the genomic-interval and
variant-record core declared in `src/include/gtools/FileParsers.h`, and proves
the behavioural properties claimed for it.

The repository ships only the header (declarations and per-function
documentation); the corresponding `.cc` implementation file, as well as
`ChromInterval.h` and `VCF_variant_info.h`, are not part of the source tree.
Every algorithm body below is therefore modelled from the specification's
words (§4.1–§4.7 of the design document), as noted in each doc comment.

File I/O and line tokenization are external collaborators in the design, so a
"file" is embedded as its decoded content: a list of intervals (BED), a list
of valued intervals (BEDgraph/CN), or a list of variant records (VCF).
-/

/-- The interval model (`chrom_interval` of `ChromInterval.h`, not in the
source tree).  Modelled from the spec: a genomic interval is
`{chromosome: string, start: integer, stop: integer}`. -/
structure chrom_interval where
  chrom : String
  start : Int
  stop : Int
deriving DecidableEq, Repr

/-- Error kinds of the design's §7 that the embedded core can raise. -/
inductive ParseError where
  | InvalidInterval
  | InvalidWindowSize
deriving DecidableEq, Repr

/-- A tri-state flag (`boost::tribool`): `unknown` / `ttrue` / `tfalse`. -/
inductive tribool where
  | unknown
  | ttrue
  | tfalse
deriving DecidableEq, Repr

/-- The genotype classes of the spec's Variant Record Model:
`enum{HET, HOM_ALT, OTHER}`. -/
inductive GenotypeClass where
  | HET
  | HOM_ALT
  | OTHER
deriving DecidableEq, Repr

/-- The variant record (`VCF_variant_info.h`, not in the source tree).
Modelled from the spec §3: chromosome, position, reference/alternate alleles,
genotype class, the two tri-state membership flags (`in1KG` is the spec's
`in_reference_panel`, `in_dbSNP` its `in_known_db`), and an optional quality.
The spec's optional float quality is embedded as an optional rational, since
no operation of the core computes with it. -/
structure VCF_variant_info where
  chrom : String
  pos : Int
  ref_allele : String
  alt_allele : String
  genotype_class : GenotypeClass
  in1KG : tribool
  in_dbSNP : tribool
  quality : Option ℚ
deriving DecidableEq, Repr

/-- The parse filter, embedded field-for-field from the header
(`FileParsers.h`, lines 83–93): an empty `chrom` means no chromosome
restriction; `genotype` is `-1` = all, `1` = het only, `2` = hmz alt only;
`dbSNP` is `-1` = all, `0` = not-in-dbSNP only, `1` = in-dbSNP only. -/
structure VCF_input_filter where
  chrom : String
  genotype : Int
  dbSNP : Int
deriving DecidableEq, Repr

/-- The header's default constructor: a filter that admits everything. -/
def VCF_input_filter.default : VCF_input_filter :=
  { chrom := "", genotype := -1, dbSNP := -1 }

/-- Insert an interval into a list ordered by ascending `start`. -/
def insertByStart (x : chrom_interval) : List chrom_interval → List chrom_interval
  | [] => [x]
  | y :: ys => if x.start ≤ y.start then x :: y :: ys else y :: insertByStart x ys

/-- Sort intervals by ascending `start` (insertion sort; the spec's §4.2 only
requires the merge scan to run over a start-sorted sequence). -/
def sortByStart : List chrom_interval → List chrom_interval
  | [] => []
  | x :: xs => insertByStart x (sortByStart xs)

/-- The single linear merge scan of the spec §4.2: `cur` is the running span;
a next interval whose `start` lies at or before `cur.stop` (closed-interval
overlap, touching endpoints merge) extends the span's `stop` to the max of the
two stops, otherwise the span is emitted and a new one starts. -/
def mergeScan (cur : chrom_interval) : List chrom_interval → List chrom_interval
  | [] => [cur]
  | x :: xs =>
      if x.start ≤ cur.stop then
        mergeScan ⟨cur.chrom, cur.start, max cur.stop x.stop⟩ xs
      else
        cur :: mergeScan x xs

/-- Modelled from the spec: the Interval Merger (§4.2), the merge phase of
`ParseAndMergeBED`, whose implementation file is absent from the source tree.
Sort by start ascending, then run the single linear merge scan. -/
def mergeIntervals (l : List chrom_interval) : List chrom_interval :=
  match sortByStart l with
  | [] => []
  | x :: xs => mergeScan x xs

/-- Group every `k` consecutive elements of a list into one chunk; the final
chunk holds the remainder. -/
def chunkList (k : Nat) : List α → List (List α)
  | [] => []
  | x :: xs => (x :: xs.take (k - 1)) :: chunkList k (xs.drop (k - 1))
termination_by l => l.length
decreasing_by simp only [List.length_cons, List.length_drop]; omega

/-- Modelled from the spec: the Window Partitioner (§4.3), the windowing phase
of `ParseAndMergeBED`, whose implementation file is absent from the source
tree.  A window size `k ≤ 0` is rejected with `InvalidWindowSize`; otherwise
every `k` consecutive merged intervals form one window and the final window
holds the (non-empty) remainder. -/
def partitionWindows (l : List chrom_interval) (k : Int) :
    Except ParseError (List (List chrom_interval)) :=
  if k ≤ 0 then Except.error ParseError.InvalidWindowSize
  else Except.ok (chunkList k.toNat l)

/-- Modelled from the spec: the Copy-Number Indexer (`ParseCNFile`, §4.4),
whose implementation file is absent from the source tree.  The decoded
BEDgraph content is a list of (interval, integer copy number) pairs; the
indexer materializes them directly, filtered by chromosome only (an empty
chromosome means no filter), into a multi-valued association. -/
def ParseCNFile (entries : List (chrom_interval × Int)) (chrom : String) :
    List (chrom_interval × Int) :=
  if chrom = "" then entries
  else entries.filter (fun e => decide (e.1.chrom = chrom))

/-- Modelled from the spec: the filter predicate of §4.5, applied by `ParseVCF`
(implementation file absent).  A record is admitted iff every set field of the
filter matches it, under the header's integer encodings. -/
def admits (f : VCF_input_filter) (v : VCF_variant_info) : Bool :=
  (decide (f.chrom = "") || decide (f.chrom = v.chrom)) &&
  (decide (f.genotype = -1) ||
    (decide (f.genotype = 1) && decide (v.genotype_class = GenotypeClass.HET)) ||
    (decide (f.genotype = 2) && decide (v.genotype_class = GenotypeClass.HOM_ALT))) &&
  (decide (f.dbSNP = -1) ||
    (decide (f.dbSNP = 1) && decide (v.in_dbSNP = tribool.ttrue)) ||
    (decide (f.dbSNP = 0) && decide (v.in_dbSNP = tribool.tfalse)))

/-- Modelled from the spec: the multi-file `ParseVCF` overload (§4.5,
implementation file absent).  Each decoded file contributes its admitted
records; files are concatenated in argument order. -/
def ParseVCF_files (files : List (List VCF_variant_info)) (f : VCF_input_filter) :
    List VCF_variant_info :=
  (files.map (fun lines => lines.filter (admits f))).flatten

/-- Modelled from the spec: the single-file `ParseVCF` overload
(implementation file absent): the admitted records of the one file. -/
def ParseVCF_file (file : List VCF_variant_info) (f : VCF_input_filter) :
    List VCF_variant_info :=
  file.filter (admits f)

/-- Modelled from the spec: the multi-file chromosome-only `ParseVCF` overload
("only return variants on a given chromosome", implementation file absent). -/
def ParseVCF_files_chrom (files : List (List VCF_variant_info)) (c : String) :
    List VCF_variant_info :=
  (files.map (fun lines => lines.filter (fun v => decide (v.chrom = c)))).flatten

/-- Modelled from the spec: the single-file chromosome-only `ParseVCF`
overload (implementation file absent). -/
def ParseVCF_file_chrom (file : List VCF_variant_info) (c : String) :
    List VCF_variant_info :=
  file.filter (fun v => decide (v.chrom = c))

/-- The identity tuple of a variant for matching/aggregation (spec §3):
(chromosome, position, reference allele, alternate allele). -/
def identOf (v : VCF_variant_info) : String × Int × String × String :=
  (v.chrom, v.pos, v.ref_allele, v.alt_allele)

/-- Set one record's `in1KG` flag from a reference sequence: `ttrue` iff some
reference record has the identical identity tuple, else `tfalse`. -/
def setFlag (rs : List VCF_variant_info) (v : VCF_variant_info) : VCF_variant_info :=
  if rs.any (fun r => decide (identOf r = identOf v)) then
    { v with in1KG := tribool.ttrue }
  else
    { v with in1KG := tribool.tfalse }

/-- Modelled from the spec: the Variant Matcher `Set1KGFlags` (§4.6,
implementation file absent).  The reference file argument is embedded as its
decoded, chromosome-restricted record list.  Every primary record's `in1KG`
flag is set by identity-tuple lookup in the reference sequence, and the count
of records found in the reference is returned. -/
def Set1KGFlags (variants refvars : List VCF_variant_info) :
    List VCF_variant_info × Nat :=
  (variants.map (setFlag refvars),
   variants.countP (fun v => refvars.any (fun r => decide (identOf r = identOf v))))

/-- Reset the `in1KG` flag to `unknown`; used to state that the Variant
Matcher changes nothing except that flag. -/
def eraseFlag (v : VCF_variant_info) : VCF_variant_info :=
  { v with in1KG := tribool.unknown }

/-- The canonical variant tag of `Parse1KGFreqs`:
`<chrom>_<pos>_<ref-base>_<alt-base>`. -/
def variantTag (v : VCF_variant_info) : String :=
  v.chrom ++ "_" ++ toString v.pos ++ "_" ++ v.ref_allele ++ "_" ++ v.alt_allele

/-- Modelled from the spec: the Frequency Aggregator `Parse1KGFreqs` (§4.7,
implementation file absent).  Each input file is embedded as its decoded
record list.  The output associates, to each distinct canonical tag observed,
the fraction of input files that report a variant with that tag (the
normalization convention fixed by the spec's §8 item 7). -/
def Parse1KGFreqs (files : List (List VCF_variant_info)) : List (String × ℚ) :=
  ((files.flatten.map variantTag).dedup).map (fun t =>
    (t, ((files.countP (fun f => f.any (fun v => decide (variantTag v = t)))) : ℚ) /
        ((files.length : Nat) : ℚ)))

/-- A point of the coordinate line is covered by an interval list iff it lies
inside some member (closed-interval convention, as used by the merge scan). -/
def covers (l : List chrom_interval) (p : Int) : Prop :=
  ∃ i ∈ l, i.start ≤ p ∧ p ≤ i.stop

/-- The merger example input of the spec's §8 item 2. -/
def demoBED : List chrom_interval :=
  [⟨"chr1", 10, 20⟩, ⟨"chr1", 15, 25⟩, ⟨"chr1", 30, 40⟩]

/-- Seven merged intervals on one chromosome, the partitioner example of the
spec's §8 item 4. -/
def demoMerged : List chrom_interval :=
  [⟨"chr1", 0, 1⟩, ⟨"chr1", 3, 4⟩, ⟨"chr1", 6, 7⟩, ⟨"chr1", 9, 10⟩,
   ⟨"chr1", 12, 13⟩, ⟨"chr1", 15, 16⟩, ⟨"chr1", 18, 19⟩]

/-- A decoded copy-number file in which one interval carries two different
copy-number calls (overlapping source regions). -/
def cnDemo : List (chrom_interval × Int) :=
  [(⟨"chr1", 0, 10⟩, 2), (⟨"chr1", 0, 10⟩, 3), (⟨"chr2", 5, 9⟩, 4)]

/-- A variant record with the given identity and all other fields at their
initial values (flags `unknown`, no quality). -/
def mkVar (c : String) (p : Int) (r a : String) : VCF_variant_info :=
  { chrom := c, pos := p, ref_allele := r, alt_allele := a,
    genotype_class := GenotypeClass.HET,
    in1KG := tribool.unknown, in_dbSNP := tribool.unknown, quality := none }

/-- The aggregator example of the spec's §8 item 7: two files report
(chr1,100,A,T) once each, a third file reports nothing. -/
def freqDemoFiles : List (List VCF_variant_info) :=
  [[mkVar "chr1" 100 "A" "T"], [mkVar "chr1" 100 "A" "T"], []]

/-- The matcher example of the spec's §8 item 6: the primary sequence. -/
def primDemo : List VCF_variant_info :=
  [mkVar "chr1" 100 "A" "T", mkVar "chr1" 200 "C" "G"]

/-- The matcher example of the spec's §8 item 6: the reference sequence. -/
def refDemo : List VCF_variant_info :=
  [mkVar "chr1" 100 "A" "T"]

/-- A small decoded VCF file used to witness the overload agreement. -/
def vcfFileDemo : List VCF_variant_info :=
  [mkVar "chr1" 100 "A" "T", mkVar "chr2" 7 "G" "C"]

/-! ## Helper lemmas: sorting -/

lemma insertByStart_perm (x : chrom_interval) (l : List chrom_interval) :
    (insertByStart x l).Perm (x :: l) := by
  induction l with
  | nil => exact List.Perm.refl _
  | cons y ys ih =>
    simp only [insertByStart]
    split
    · exact List.Perm.refl _
    · exact (ih.cons y).trans (List.Perm.swap x y ys)

lemma sortByStart_perm (l : List chrom_interval) : (sortByStart l).Perm l := by
  induction l with
  | nil => exact List.Perm.refl _
  | cons x xs ih =>
    exact (insertByStart_perm x (sortByStart xs)).trans (ih.cons x)

lemma insertByStart_head_cases (x : chrom_interval) (l : List chrom_interval) :
    (insertByStart x l).head? = some x ∨ (insertByStart x l).head? = l.head? := by
  cases l with
  | nil => left; rfl
  | cons y ys =>
    simp only [insertByStart]
    split
    · left; rfl
    · right; rfl

lemma insertByStart_chain' (x : chrom_interval) (l : List chrom_interval)
    (h : l.Chain' (fun a b => a.start ≤ b.start)) :
    (insertByStart x l).Chain' (fun a b => a.start ≤ b.start) := by
  induction l with
  | nil => simp [insertByStart]
  | cons y ys ih =>
    simp only [insertByStart]
    split
    · rename_i hxy
      exact List.chain'_cons.mpr ⟨hxy, h⟩
    · rename_i hxy
      apply List.Chain'.cons' (ih h.tail)
      intro b hb
      rcases insertByStart_head_cases x ys with hc | hc
      · rw [hc] at hb
        simp only [Option.mem_def, Option.some.injEq] at hb
        subst hb
        omega
      · rw [hc] at hb
        exact (List.chain'_cons'.mp h).1 b hb

lemma sortByStart_chain' (l : List chrom_interval) :
    (sortByStart l).Chain' (fun a b => a.start ≤ b.start) := by
  induction l with
  | nil => simp [sortByStart]
  | cons x xs ih => exact insertByStart_chain' x _ ih

lemma sortByStart_eq_self (l : List chrom_interval)
    (h : l.Chain' (fun a b => a.start ≤ b.start)) : sortByStart l = l := by
  induction l with
  | nil => rfl
  | cons x xs ih =>
    have hxs := ih h.tail
    simp only [sortByStart, hxs]
    cases xs with
    | nil => rfl
    | cons y ys =>
      simp only [insertByStart]
      rw [if_pos (List.chain'_cons.mp h).1]

/-! ## Helper lemmas: the merge scan -/

lemma mergeScan_head_start (cur : chrom_interval) (rest : List chrom_interval) :
    ∃ b l', mergeScan cur rest = b :: l' ∧ b.start = cur.start := by
  induction rest generalizing cur with
  | nil => exact ⟨cur, [], rfl, rfl⟩
  | cons x xs ih =>
    simp only [mergeScan]
    split
    · exact ih ⟨cur.chrom, cur.start, max cur.stop x.stop⟩
    · exact ⟨cur, mergeScan x xs, rfl, rfl⟩

lemma mergeScan_chain' (cur : chrom_interval) (rest : List chrom_interval)
    (h : (cur :: rest).Chain' (fun a b => a.start ≤ b.start)) :
    (mergeScan cur rest).Chain' (fun a b => a.stop < b.start) := by
  induction rest generalizing cur with
  | nil => simp [mergeScan]
  | cons x xs ih =>
    have hxxs : (x :: xs).Chain' (fun a b => a.start ≤ b.start) :=
      (List.chain'_cons.mp h).2
    simp only [mergeScan]
    split
    · rename_i hov
      apply ih
      apply List.Chain'.cons' hxxs.tail
      intro b hb
      have hxb : x.start ≤ b.start := (List.chain'_cons'.mp hxxs).1 b hb
      have hcx : cur.start ≤ x.start := (List.chain'_cons.mp h).1
      show cur.start ≤ b.start
      omega
    · rename_i hov
      apply List.Chain'.cons' (ih x hxxs)
      intro b hb
      obtain ⟨b', l', heq, hstart⟩ := mergeScan_head_start x xs
      rw [heq] at hb
      simp only [List.head?_cons, Option.mem_def, Option.some.injEq] at hb
      subst hb
      show cur.stop < b'.start
      omega

lemma mergeScan_valid (cur : chrom_interval) (rest : List chrom_interval)
    (hc : cur.start ≤ cur.stop) (hr : ∀ i ∈ rest, i.start ≤ i.stop) :
    ∀ j ∈ mergeScan cur rest, j.start ≤ j.stop := by
  induction rest generalizing cur with
  | nil =>
    intro j hj
    simp only [mergeScan, List.mem_singleton] at hj
    subst hj
    exact hc
  | cons x xs ih =>
    simp only [mergeScan]
    split
    · apply ih
      · show cur.start ≤ max cur.stop x.stop
        have := le_max_left cur.stop x.stop
        omega
      · exact fun i hi => hr i (List.mem_cons_of_mem _ hi)
    · intro j hj
      rcases List.mem_cons.mp hj with h1 | h1
      · subst h1; exact hc
      · exact ih x (hr x (List.mem_cons_self _ _))
          (fun i hi => hr i (List.mem_cons_of_mem _ hi)) j h1

lemma mergeScan_chrom (cur : chrom_interval) (rest : List chrom_interval)
    (c : String) (hc : cur.chrom = c) (hr : ∀ i ∈ rest, i.chrom = c) :
    ∀ j ∈ mergeScan cur rest, j.chrom = c := by
  induction rest generalizing cur with
  | nil =>
    intro j hj
    simp only [mergeScan, List.mem_singleton] at hj
    subst hj
    exact hc
  | cons x xs ih =>
    simp only [mergeScan]
    split
    · exact ih ⟨cur.chrom, cur.start, max cur.stop x.stop⟩ hc
        (fun i hi => hr i (List.mem_cons_of_mem _ hi))
    · intro j hj
      rcases List.mem_cons.mp hj with h1 | h1
      · subst h1; exact hc
      · exact ih x (hr x (List.mem_cons_self _ _))
          (fun i hi => hr i (List.mem_cons_of_mem _ hi)) j h1

lemma covers_cons (a : chrom_interval) (l : List chrom_interval) (p : Int) :
    covers (a :: l) p ↔ (a.start ≤ p ∧ p ≤ a.stop) ∨ covers l p := by
  constructor
  · rintro ⟨i, hi, hp⟩
    rcases List.mem_cons.mp hi with h | h
    · subst h; exact Or.inl hp
    · exact Or.inr ⟨i, h, hp⟩
  · rintro (hp | ⟨i, hi, hp⟩)
    · exact ⟨a, List.mem_cons_self a l, hp⟩
    · exact ⟨i, List.mem_cons_of_mem a hi, hp⟩

lemma mergeScan_covers (cur : chrom_interval) (rest : List chrom_interval)
    (h : (cur :: rest).Chain' (fun a b => a.start ≤ b.start)) (p : Int) :
    covers (mergeScan cur rest) p ↔ covers (cur :: rest) p := by
  induction rest generalizing cur with
  | nil => simp [mergeScan]
  | cons x xs ih =>
    have hcx : cur.start ≤ x.start := (List.chain'_cons.mp h).1
    have hxxs : (x :: xs).Chain' (fun a b => a.start ≤ b.start) :=
      (List.chain'_cons.mp h).2
    simp only [mergeScan]
    split
    · rename_i hov
      have hchain :
          (chrom_interval.mk cur.chrom cur.start (max cur.stop x.stop) :: xs).Chain'
            (fun a b => a.start ≤ b.start) := by
        apply List.Chain'.cons' hxxs.tail
        intro b hb
        have := (List.chain'_cons'.mp hxxs).1 b hb
        show cur.start ≤ b.start
        omega
      rw [ih _ hchain, covers_cons, covers_cons, covers_cons]
      dsimp only
      constructor
      · rintro (⟨h1, h2⟩ | hc)
        · rcases le_or_lt p cur.stop with hpc | hpc
          · exact Or.inl ⟨h1, hpc⟩
          · refine Or.inr (Or.inl ⟨by omega, ?_⟩)
            rcases le_total cur.stop x.stop with hm | hm
            · rwa [max_eq_right hm] at h2
            · rw [max_eq_left hm] at h2; omega
        · exact Or.inr (Or.inr hc)
      · rintro (⟨h1, h2⟩ | ⟨h1, h2⟩ | hc)
        · exact Or.inl ⟨h1, le_trans h2 (le_max_left _ _)⟩
        · exact Or.inl ⟨le_trans hcx h1, le_trans h2 (le_max_right _ _)⟩
        · exact Or.inr hc
    · rename_i hov
      rw [covers_cons, covers_cons, ih x hxxs, covers_cons]

lemma chain'_le_of_chain'_lt (l : List chrom_interval)
    (hv : ∀ i ∈ l, i.start ≤ i.stop)
    (h : l.Chain' (fun a b => a.stop < b.start)) :
    l.Chain' (fun a b => a.start ≤ b.start) := by
  induction l with
  | nil => simp
  | cons a l ih =>
    cases l with
    | nil => simp
    | cons b m =>
      have h1 := (List.chain'_cons.mp h).1
      have ha := hv a (List.mem_cons_self _ _)
      exact List.chain'_cons.mpr ⟨by omega,
        ih (fun i hi => hv i (List.mem_cons_of_mem _ hi)) (List.chain'_cons.mp h).2⟩

lemma mergeScan_eq_self (cur : chrom_interval) (rest : List chrom_interval)
    (h : (cur :: rest).Chain' (fun a b => a.stop < b.start)) :
    mergeScan cur rest = cur :: rest := by
  induction rest generalizing cur with
  | nil => rfl
  | cons x xs ih =>
    have h1 := (List.chain'_cons.mp h).1
    simp only [mergeScan]
    rw [if_neg (by omega), ih x (List.chain'_cons.mp h).2]

/-! ## Helper lemmas: chunking -/

lemma chunkList_flatten_len (k : Nat) (n : Nat) :
    ∀ l : List α, l.length ≤ n → (chunkList k l).flatten = l := by
  induction n with
  | zero =>
    intro l hl
    rw [List.length_eq_zero.mp (Nat.le_zero.mp hl)]
    simp [chunkList]
  | succ n ih =>
    intro l hl
    cases l with
    | nil => simp [chunkList]
    | cons x xs =>
      rw [chunkList, List.flatten_cons,
        ih (xs.drop (k - 1)) (by simp only [List.length_drop]; simp at hl; omega)]
      simp [List.take_append_drop]

lemma chunkList_flatten (k : Nat) (l : List α) : (chunkList k l).flatten = l :=
  chunkList_flatten_len k l.length l le_rfl

lemma chunkList_ne_nil_len (k : Nat) (n : Nat) :
    ∀ l : List α, l.length ≤ n → ∀ w ∈ chunkList k l, w ≠ [] := by
  induction n with
  | zero =>
    intro l hl
    rw [List.length_eq_zero.mp (Nat.le_zero.mp hl)]
    simp [chunkList]
  | succ n ih =>
    intro l hl
    cases l with
    | nil => simp [chunkList]
    | cons x xs =>
      rw [chunkList]
      intro w hw
      rcases List.mem_cons.mp hw with h1 | h1
      · subst h1; simp
      · exact ih (xs.drop (k - 1))
          (by simp only [List.length_drop]; simp at hl; omega) w h1

lemma chunkList_ne_nil (k : Nat) (l : List α) : ∀ w ∈ chunkList k l, w ≠ [] :=
  chunkList_ne_nil_len k l.length l le_rfl

/-! ## Claim theorems -/

/-- C1: for every input collection of valid intervals on one chromosome, the
Interval Merger produces a sequence of non-overlapping merged intervals sorted
ascending by start; overlapping inputs coalesce and disjoint ones remain
separate, in the sense that the output covers exactly the coordinates the
input covers while its members are pairwise disjoint; in particular merging
{(chr1,10,20), (chr1,15,25), (chr1,30,40)} yields {(chr1,10,25), (chr1,30,40)}. -/
theorem mergeIntervals_correct (l : List chrom_interval) (c : String)
    (hval : ∀ i ∈ l, i.start ≤ i.stop) (hchr : ∀ i ∈ l, i.chrom = c) :
    (mergeIntervals l).Chain' (fun a b => a.stop < b.start) ∧
    (mergeIntervals l).Chain' (fun a b => a.start ≤ b.start) ∧
    (∀ j ∈ mergeIntervals l, j.start ≤ j.stop ∧ j.chrom = c) ∧
    (∀ p : Int, covers (mergeIntervals l) p ↔ covers l p) ∧
    mergeIntervals demoBED = [⟨"chr1", 10, 25⟩, ⟨"chr1", 30, 40⟩] := by
  have hperm := sortByStart_perm l
  have hchain := sortByStart_chain' l
  have hval' : ∀ i ∈ sortByStart l, i.start ≤ i.stop :=
    fun i hi => hval i (hperm.mem_iff.mp hi)
  have hchr' : ∀ i ∈ sortByStart l, i.chrom = c :=
    fun i hi => hchr i (hperm.mem_iff.mp hi)
  cases hs : sortByStart l with
  | nil =>
    have hm : mergeIntervals l = [] := by unfold mergeIntervals; rw [hs]
    rw [hs] at hperm
    have hl : l = [] := hperm.symm.eq_nil
    subst hl
    exact ⟨by rw [hm]; simp, by rw [hm]; simp, by rw [hm]; simp,
      fun p => by rw [hm], by decide⟩
  | cons x xs =>
    have hm : mergeIntervals l = mergeScan x xs := by unfold mergeIntervals; rw [hs]
    rw [hs] at hchain hval' hchr' hperm
    have hvx := hval' x (List.mem_cons_self _ _)
    have hvxs := fun i hi => hval' i (List.mem_cons_of_mem x hi)
    refine ⟨?_, ?_, ?_, ?_, by decide⟩
    · rw [hm]; exact mergeScan_chain' x xs hchain
    · rw [hm]
      exact chain'_le_of_chain'_lt _ (mergeScan_valid x xs hvx hvxs)
        (mergeScan_chain' x xs hchain)
    · rw [hm]
      intro j hj
      exact ⟨mergeScan_valid x xs hvx hvxs j hj,
        mergeScan_chrom x xs c (hchr' x (List.mem_cons_self _ _))
          (fun i hi => hchr' i (List.mem_cons_of_mem x hi)) j hj⟩
    · intro p
      rw [hm, mergeScan_covers x xs hchain p]
      constructor
      · rintro ⟨i, hi, hp⟩; exact ⟨i, hperm.mem_iff.mp hi, hp⟩
      · rintro ⟨i, hi, hp⟩; exact ⟨i, hperm.mem_iff.mpr hi, hp⟩

theorem mergeIntervals_correct_witness :
    (∀ i ∈ demoBED, i.start ≤ i.stop) ∧ (∀ i ∈ demoBED, i.chrom = "chr1") ∧
    ((mergeIntervals demoBED).Chain' (fun a b => a.stop < b.start) ∧
     (mergeIntervals demoBED).Chain' (fun a b => a.start ≤ b.start) ∧
     (∀ j ∈ mergeIntervals demoBED, j.start ≤ j.stop ∧ j.chrom = "chr1") ∧
     (∀ p : Int, covers (mergeIntervals demoBED) p ↔ covers demoBED p) ∧
     mergeIntervals demoBED = [⟨"chr1", 10, 25⟩, ⟨"chr1", 30, 40⟩]) :=
  ⟨by decide, by decide,
    mergeIntervals_correct demoBED "chr1" (by decide) (by decide)⟩

/-- C8: the Interval Merger is idempotent — merging an already-merged
(non-overlapping, start-sorted) sequence of valid intervals returns it
unchanged. -/
theorem mergeIntervals_idempotent (l : List chrom_interval)
    (hval : ∀ i ∈ l, i.start ≤ i.stop)
    (hmerged : l.Chain' (fun a b => a.stop < b.start)) :
    mergeIntervals l = l := by
  have hle := chain'_le_of_chain'_lt l hval hmerged
  have hs := sortByStart_eq_self l hle
  unfold mergeIntervals
  rw [hs]
  cases l with
  | nil => rfl
  | cons x xs => exact mergeScan_eq_self x xs hmerged

theorem mergeIntervals_idempotent_witness :
    (∀ i ∈ ([⟨"chr1", 10, 25⟩, ⟨"chr1", 30, 40⟩] : List chrom_interval),
      i.start ≤ i.stop) ∧
    ([⟨"chr1", 10, 25⟩, ⟨"chr1", 30, 40⟩] : List chrom_interval).Chain'
      (fun a b => a.stop < b.start) ∧
    mergeIntervals [⟨"chr1", 10, 25⟩, ⟨"chr1", 30, 40⟩] =
      [⟨"chr1", 10, 25⟩, ⟨"chr1", 30, 40⟩] :=
  ⟨by decide, by simp [List.chain'_cons],
    mergeIntervals_idempotent [⟨"chr1", 10, 25⟩, ⟨"chr1", 30, 40⟩]
      (by decide) (by simp [List.chain'_cons])⟩

/-- C2: for every positive window size k, the Window Partitioner succeeds and
places each merged input interval in exactly one window: the concatenation of
the windows in order reproduces the merged-interval sequence exactly (hence
every interval occurrence lands in exactly one window), windows are non-empty,
and 7 merged intervals with k = 3 yield exactly 3 windows of sizes [3,3,1]. -/
theorem partitionWindows_correct (l : List chrom_interval) (k : Int)
    (hk : 0 < k) :
    ∃ ws, partitionWindows l k = Except.ok ws ∧
      ws.flatten = l ∧
      (∀ x : chrom_interval, (ws.map (List.count x)).sum = l.count x) ∧
      (∀ w ∈ ws, w ≠ []) ∧
      (∃ ws7, partitionWindows demoMerged 3 = Except.ok ws7 ∧
        ws7.map List.length = [3, 3, 1] ∧ ws7.flatten = demoMerged) := by
  have hws7 : chunkList 3 demoMerged =
      [[⟨"chr1", 0, 1⟩, ⟨"chr1", 3, 4⟩, ⟨"chr1", 6, 7⟩],
       [⟨"chr1", 9, 10⟩, ⟨"chr1", 12, 13⟩, ⟨"chr1", 15, 16⟩],
       [⟨"chr1", 18, 19⟩]] := by
    simp [chunkList, demoMerged]
  refine ⟨chunkList k.toNat l, ?_, chunkList_flatten _ _, ?_,
    chunkList_ne_nil _ _, ⟨chunkList 3 demoMerged, rfl, ?_, chunkList_flatten _ _⟩⟩
  · unfold partitionWindows
    rw [if_neg (by omega)]
  · intro x
    rw [← List.count_flatten, chunkList_flatten]
  · rw [hws7]
    rfl

theorem partitionWindows_correct_witness :
    (0 : Int) < 3 ∧
    (∃ ws, partitionWindows demoMerged 3 = Except.ok ws ∧
      ws.flatten = demoMerged ∧
      (∀ x : chrom_interval, (ws.map (List.count x)).sum = demoMerged.count x) ∧
      (∀ w ∈ ws, w ≠ []) ∧
      (∃ ws7, partitionWindows demoMerged 3 = Except.ok ws7 ∧
        ws7.map List.length = [3, 3, 1] ∧ ws7.flatten = demoMerged)) :=
  ⟨by decide, partitionWindows_correct demoMerged 3 (by decide)⟩

/-- C7: for every non-empty input and window size k ≤ 0, the Window
Partitioner fails with `InvalidWindowSize` instead of clamping or
proceeding. -/
theorem partitionWindows_invalid (l : List chrom_interval) (k : Int)
    (_hne : l ≠ []) (hk : k ≤ 0) :
    partitionWindows l k = Except.error ParseError.InvalidWindowSize := by
  unfold partitionWindows
  rw [if_pos hk]

theorem partitionWindows_invalid_witness :
    demoMerged ≠ [] ∧ (0 : Int) ≤ 0 ∧
    partitionWindows demoMerged 0 = Except.error ParseError.InvalidWindowSize :=
  ⟨by decide, by decide, partitionWindows_invalid demoMerged 0 (by decide) (by decide)⟩

/-! ## Helper lemmas: variants -/

lemma setFlag_in1KG (rs : List VCF_variant_info) (v : VCF_variant_info) :
    (setFlag rs v).in1KG =
      (if ∃ r ∈ rs, identOf r = identOf v then tribool.ttrue else tribool.tfalse) := by
  simp only [setFlag]
  split
  · rename_i hb
    rw [if_pos (by simpa using hb)]
  · rename_i hb
    rw [if_neg (by simpa using hb)]

lemma admits_iff (f : VCF_input_filter) (v : VCF_variant_info) :
    admits f v = true ↔
      ((f.chrom = "" ∨ f.chrom = v.chrom) ∧
       (f.genotype = -1 ∨ (f.genotype = 1 ∧ v.genotype_class = GenotypeClass.HET) ∨
         (f.genotype = 2 ∧ v.genotype_class = GenotypeClass.HOM_ALT)) ∧
       (f.dbSNP = -1 ∨ (f.dbSNP = 1 ∧ v.in_dbSNP = tribool.ttrue) ∨
         (f.dbSNP = 0 ∧ v.in_dbSNP = tribool.tfalse))) := by
  simp only [admits, Bool.and_eq_true, Bool.or_eq_true, decide_eq_true_iff]
  tauto

lemma admits_chr2_het (w : VCF_variant_info) :
    admits ⟨"chr2", 1, -1⟩ w = true ↔
      (w.chrom = "chr2" ∧ w.genotype_class = GenotypeClass.HET) := by
  rw [admits_iff]
  constructor
  · rintro ⟨h1, h2, -⟩
    refine ⟨?_, ?_⟩
    · rcases h1 with h | h
      · exact absurd h (by decide)
      · exact h.symm
    · rcases h2 with h | ⟨-, h⟩ | ⟨h, -⟩
      · exact absurd h (by decide)
      · exact h
      · exact absurd h (by decide)
  · rintro ⟨h1, h2⟩
    exact ⟨Or.inr h1.symm, Or.inr (Or.inl ⟨rfl, h2⟩), Or.inl rfl⟩

/-- C3: the Variant Matcher sets each primary record's membership flag to
`ttrue` exactly when a reference record with the identical
(chromosome, position, reference allele, alternate allele) tuple exists and to
`tfalse` otherwise, never leaving it `unknown`, and returns the count of
primary records flagged `ttrue`. -/
theorem Set1KGFlags_correct (vs rs : List VCF_variant_info) :
    List.Forall₂
      (fun v v' => v'.in1KG =
        (if ∃ r ∈ rs, identOf r = identOf v then tribool.ttrue else tribool.tfalse))
      vs (Set1KGFlags vs rs).1 ∧
    (∀ v' ∈ (Set1KGFlags vs rs).1, v'.in1KG ≠ tribool.unknown) ∧
    (Set1KGFlags vs rs).2 =
      (Set1KGFlags vs rs).1.countP (fun v' => decide (v'.in1KG = tribool.ttrue)) := by
  refine ⟨?_, ?_, ?_⟩
  · show List.Forall₂ _ vs (vs.map (setFlag rs))
    rw [List.forall₂_map_right_iff, List.forall₂_same]
    intro x _
    exact setFlag_in1KG rs x
  · intro v' hv'
    obtain ⟨v, -, rfl⟩ := List.mem_map.mp hv'
    rw [setFlag_in1KG]
    split <;> simp
  · show vs.countP _ = (vs.map (setFlag rs)).countP _
    rw [List.countP_map]
    apply List.countP_congr
    intro x _
    simp only [Function.comp_apply, decide_eq_true_iff, setFlag_in1KG]
    by_cases h : ∃ r ∈ rs, identOf r = identOf x
    · simp [h, List.any_eq_true]
    · simp [h, List.any_eq_true]

theorem Set1KGFlags_correct_witness :
    List.Forall₂
      (fun v v' => v'.in1KG =
        (if ∃ r ∈ refDemo, identOf r = identOf v then tribool.ttrue
         else tribool.tfalse))
      primDemo (Set1KGFlags primDemo refDemo).1 ∧
    (∀ v' ∈ (Set1KGFlags primDemo refDemo).1, v'.in1KG ≠ tribool.unknown) ∧
    (Set1KGFlags primDemo refDemo).2 =
      (Set1KGFlags primDemo refDemo).1.countP
        (fun v' => decide (v'.in1KG = tribool.ttrue)) :=
  Set1KGFlags_correct primDemo refDemo

/-- C4: the Variant Matcher never reorders or removes primary records and
mutates only the membership flag: the output has the same length and order,
and every field other than `in1KG` is unchanged record-for-record. -/
theorem Set1KGFlags_frame (vs rs : List VCF_variant_info) :
    (Set1KGFlags vs rs).1.length = vs.length ∧
    (Set1KGFlags vs rs).1.map eraseFlag = vs.map eraseFlag ∧
    List.Forall₂ (fun v v' =>
      v'.chrom = v.chrom ∧ v'.pos = v.pos ∧ v'.ref_allele = v.ref_allele ∧
      v'.alt_allele = v.alt_allele ∧ v'.genotype_class = v.genotype_class ∧
      v'.in_dbSNP = v.in_dbSNP ∧ v'.quality = v.quality)
      vs (Set1KGFlags vs rs).1 := by
  have herase : ∀ v, eraseFlag (setFlag rs v) = eraseFlag v := by
    intro v
    simp only [setFlag]
    split <;> rfl
  refine ⟨by simp [Set1KGFlags], ?_, ?_⟩
  · show (vs.map (setFlag rs)).map eraseFlag = vs.map eraseFlag
    rw [List.map_map]
    exact List.map_congr_left (fun a _ => herase a)
  · show List.Forall₂ _ vs (vs.map (setFlag rs))
    rw [List.forall₂_map_right_iff, List.forall₂_same]
    intro x _
    simp only [setFlag]
    split <;> exact ⟨rfl, rfl, rfl, rfl, rfl, rfl, rfl⟩

theorem Set1KGFlags_frame_witness :
    (Set1KGFlags primDemo refDemo).1.length = primDemo.length ∧
    (Set1KGFlags primDemo refDemo).1.map eraseFlag = primDemo.map eraseFlag ∧
    List.Forall₂ (fun v v' =>
      v'.chrom = v.chrom ∧ v'.pos = v.pos ∧ v'.ref_allele = v.ref_allele ∧
      v'.alt_allele = v.alt_allele ∧ v'.genotype_class = v.genotype_class ∧
      v'.in_dbSNP = v.in_dbSNP ∧ v'.quality = v.quality)
      primDemo (Set1KGFlags primDemo refDemo).1 :=
  Set1KGFlags_frame primDemo refDemo

/-- C5: the filter predicate admits a record iff all set fields match
simultaneously (logical AND of the three unset-or-equal conditions, under the
header's integer encodings), and the filter with chromosome "chr2" and
genotype class HET admits exactly the records matching both. -/
theorem VCF_filter_admits_correct (f : VCF_input_filter) (v : VCF_variant_info) :
    (admits f v = true ↔
      ((f.chrom = "" ∨ f.chrom = v.chrom) ∧
       (f.genotype = -1 ∨ (f.genotype = 1 ∧ v.genotype_class = GenotypeClass.HET) ∨
         (f.genotype = 2 ∧ v.genotype_class = GenotypeClass.HOM_ALT)) ∧
       (f.dbSNP = -1 ∨ (f.dbSNP = 1 ∧ v.in_dbSNP = tribool.ttrue) ∨
         (f.dbSNP = 0 ∧ v.in_dbSNP = tribool.tfalse)))) ∧
    (∀ w : VCF_variant_info, admits ⟨"chr2", 1, -1⟩ w = true ↔
      (w.chrom = "chr2" ∧ w.genotype_class = GenotypeClass.HET)) :=
  ⟨admits_iff f v, admits_chr2_het⟩

theorem VCF_filter_admits_correct_witness :
    (admits VCF_input_filter.default (mkVar "chr2" 5 "A" "T") = true ↔
      ((VCF_input_filter.default.chrom = "" ∨
        VCF_input_filter.default.chrom = (mkVar "chr2" 5 "A" "T").chrom) ∧
       (VCF_input_filter.default.genotype = -1 ∨
         (VCF_input_filter.default.genotype = 1 ∧
           (mkVar "chr2" 5 "A" "T").genotype_class = GenotypeClass.HET) ∨
         (VCF_input_filter.default.genotype = 2 ∧
           (mkVar "chr2" 5 "A" "T").genotype_class = GenotypeClass.HOM_ALT)) ∧
       (VCF_input_filter.default.dbSNP = -1 ∨
         (VCF_input_filter.default.dbSNP = 1 ∧
           (mkVar "chr2" 5 "A" "T").in_dbSNP = tribool.ttrue) ∨
         (VCF_input_filter.default.dbSNP = 0 ∧
           (mkVar "chr2" 5 "A" "T").in_dbSNP = tribool.tfalse)))) ∧
    (∀ w : VCF_variant_info, admits ⟨"chr2", 1, -1⟩ w = true ↔
      (w.chrom = "chr2" ∧ w.genotype_class = GenotypeClass.HET)) :=
  VCF_filter_admits_correct VCF_input_filter.default (mkVar "chr2" 5 "A" "T")

/-- C6: the Frequency Aggregator's output has pairwise distinct keys, each key
is the canonical tag of an observed variant identity (so each distinct
identity contributes at most one entry), every observed variant has an entry,
every frequency lies in [0,1], and the spec's three-file example yields the
tag chr1_100_A_T with frequency 2/3. -/
theorem Parse1KGFreqs_correct (files : List (List VCF_variant_info)) :
    ((Parse1KGFreqs files).map Prod.fst).Nodup ∧
    (∀ e ∈ Parse1KGFreqs files,
      (∃ v ∈ files.flatten, variantTag v = e.1) ∧ 0 ≤ e.2 ∧ e.2 ≤ 1) ∧
    (∀ v ∈ files.flatten, ∃ e ∈ Parse1KGFreqs files, e.1 = variantTag v) ∧
    Parse1KGFreqs freqDemoFiles = [("chr1_100_A_T", (2 : ℚ)/3)] := by
  refine ⟨?_, ?_, ?_, ?_⟩
  · unfold Parse1KGFreqs
    rw [List.map_map]
    have hid : (Prod.fst ∘ fun t : String =>
        (t, ((files.countP (fun f => f.any (fun v => decide (variantTag v = t)))) : ℚ) /
            ((files.length : Nat) : ℚ))) = id := rfl
    rw [hid, List.map_id]
    exact List.nodup_dedup _
  · intro e he
    unfold Parse1KGFreqs at he
    obtain ⟨t, ht, rfl⟩ := List.mem_map.mp he
    obtain ⟨v, hv, hvt⟩ := List.mem_map.mp (List.mem_dedup.mp ht)
    have hne : files ≠ [] := by
      intro h
      subst h
      simp at hv
    have hlen : 0 < ((files.length : Nat) : ℚ) := by
      have : 0 < files.length := List.length_pos.mpr hne
      exact_mod_cast this
    refine ⟨⟨v, hv, hvt⟩, ?_, ?_⟩
    · exact div_nonneg (Nat.cast_nonneg _) (le_of_lt hlen)
    · rw [div_le_one hlen]
      exact_mod_cast List.countP_le_length _
  · intro v hv
    have h1 : variantTag v ∈ (files.flatten.map variantTag).dedup :=
      List.mem_dedup.mpr (List.mem_map_of_mem variantTag hv)
    exact ⟨_, List.mem_map_of_mem _ h1, rfl⟩
  · have h : Parse1KGFreqs freqDemoFiles =
        [("chr1_100_A_T", ((2 : Nat) : ℚ)/((3 : Nat) : ℚ))] := rfl
    rw [h]
    norm_num

theorem Parse1KGFreqs_correct_witness :
    ((Parse1KGFreqs freqDemoFiles).map Prod.fst).Nodup ∧
    (∀ e ∈ Parse1KGFreqs freqDemoFiles,
      (∃ v ∈ freqDemoFiles.flatten, variantTag v = e.1) ∧ 0 ≤ e.2 ∧ e.2 ≤ 1) ∧
    (∀ v ∈ freqDemoFiles.flatten,
      ∃ e ∈ Parse1KGFreqs freqDemoFiles, e.1 = variantTag v) ∧
    Parse1KGFreqs freqDemoFiles = [("chr1_100_A_T", (2 : ℚ)/3)] :=
  Parse1KGFreqs_correct freqDemoFiles

/-- C9: with a chromosome filter every output entry's interval lies on that
chromosome; without a filter all parsed entries are returned; and the
association is multi-valued — one interval can carry two different
copy-number calls. -/
theorem ParseCNFile_correct (entries : List (chrom_interval × Int)) (c : String)
    (hc : c ≠ "") :
    (∀ e ∈ ParseCNFile entries c, e.1.chrom = c) ∧
    ParseCNFile entries "" = entries ∧
    ((⟨"chr1", 0, 10⟩, (2 : Int)) ∈ ParseCNFile cnDemo "" ∧
     (⟨"chr1", 0, 10⟩, (3 : Int)) ∈ ParseCNFile cnDemo "" ∧ (2 : Int) ≠ 3) := by
  refine ⟨?_, by simp [ParseCNFile], by decide, by decide, by decide⟩
  unfold ParseCNFile
  rw [if_neg hc]
  intro e he
  exact of_decide_eq_true (List.mem_filter.mp he).2

theorem ParseCNFile_correct_witness :
    ("chr2" : String) ≠ "" ∧
    ((∀ e ∈ ParseCNFile cnDemo "chr2", e.1.chrom = "chr2") ∧
     ParseCNFile cnDemo "" = cnDemo ∧
     ((⟨"chr1", 0, 10⟩, (2 : Int)) ∈ ParseCNFile cnDemo "" ∧
      (⟨"chr1", 0, 10⟩, (3 : Int)) ∈ ParseCNFile cnDemo "" ∧ (2 : Int) ≠ 3)) :=
  ⟨by decide, ParseCNFile_correct cnDemo "chr2" (by decide)⟩

/-- C10: the four ParseVCF overloads agree — the single-file overload equals
the multi-file overload on a one-element file list, and for every non-empty
chromosome name the chromosome-only overloads equal the filter overloads
called with a filter whose only set field is the chromosome (an empty string
encodes "unset" in the header's filter, so chromosome names are non-empty). -/
theorem ParseVCF_overloads_agree (file : List VCF_variant_info)
    (files : List (List VCF_variant_info)) (f : VCF_input_filter) (c : String)
    (hc : c ≠ "") :
    ParseVCF_file file f = ParseVCF_files [file] f ∧
    ParseVCF_files_chrom files c = ParseVCF_files files ⟨c, -1, -1⟩ ∧
    ParseVCF_file_chrom file c = ParseVCF_file file ⟨c, -1, -1⟩ := by
  have hfun : (fun v : VCF_variant_info => decide (v.chrom = c)) =
      admits ⟨c, -1, -1⟩ := by
    funext v
    have h1 : decide (c = "") = false := by simpa using hc
    have h2 : decide (v.chrom = c) = decide (c = v.chrom) :=
      decide_eq_decide.mpr eq_comm
    simp [admits, h1, h2]
  refine ⟨?_, ?_, ?_⟩
  · simp [ParseVCF_file, ParseVCF_files]
  · unfold ParseVCF_files_chrom ParseVCF_files
    rw [hfun]
  · unfold ParseVCF_file_chrom ParseVCF_file
    rw [hfun]

theorem ParseVCF_overloads_agree_witness :
    ("chr1" : String) ≠ "" ∧
    (ParseVCF_file vcfFileDemo VCF_input_filter.default =
      ParseVCF_files [vcfFileDemo] VCF_input_filter.default ∧
     ParseVCF_files_chrom [vcfFileDemo] "chr1" =
      ParseVCF_files [vcfFileDemo] ⟨"chr1", -1, -1⟩ ∧
     ParseVCF_file_chrom vcfFileDemo "chr1" =
      ParseVCF_file vcfFileDemo ⟨"chr1", -1, -1⟩) :=
  ⟨by decide,
    ParseVCF_overloads_agree vcfFileDemo [vcfFileDemo]
      VCF_input_filter.default "chr1" (by decide)⟩
